import Mathlib

/-!
Verification of the concurrent proxy verification and scoring engine
(`check_proxy.py`, `iptest.py`, `check_domain.py`).

Python strings are modelled as `List Char`; machine integers as `Nat`/`Int`;
Python floats as `ℚ` (all arithmetic in the scripts is small and exact at the
claimed data points); fallible operations as `Option`.  Each definition below
is a direct shallow embedding of the corresponding Python function, keeping
the source name where Lean allows it.
-/

namespace IptestRepo

/-! ## Basic character and digit utilities -/

/-- Numeric value of a list of decimal digit characters, as computed by
Python `int(...)` on a digits-only string: `foldl (a*10 + digit)`. -/
def digitsToNat (l : List Char) : Nat :=
  l.foldl (fun a c => a * 10 + (c.toNat - 48)) 0

/-- The decimal digit character for `d < 10` (mirrors Python `str` digit). -/
def digitChar (d : Nat) : Char := Char.ofNat (48 + d)

/-- Decimal digit characters of `n`, most significant first, fuel-indexed so
that the recursion is structural (fuel `n+1` always suffices). -/
def natDigitsAux : Nat → Nat → List Char
  | 0, _ => []
  | fuel + 1, n =>
    if n < 10 then [digitChar n]
    else natDigitsAux fuel (n / 10) ++ [digitChar (n % 10)]

/-- Decimal representation of a natural number, as Python `str(n)`. -/
def natDigits (n : Nat) : List Char := natDigitsAux (n + 1) n

/-- `matchesStart p l` is Python `l.startswith(p)` on character lists. -/
def matchesStart : List Char → List Char → Bool
  | [], _ => true
  | _ :: _, [] => false
  | a :: as, b :: bs => a = b && matchesStart as bs

/-! ## Persistent ranked store (`save_success_proxy`, check_proxy.py 475-550)

The ledger is a list of lines (character lists).  File path resolution and
the `file_lock` mutual exclusion are outside the model: one `upsert` is the
whole locked read-modify-write section, acting on the current ledger lines.
-/

/-- The ledger line written for a proxy: `f"{proxy}#{avg}ms"` (the code
appends `ms` because `str(avg)` of an integer never ends in `ms`). -/
def mkLine (proxy : List Char) (rt : Nat) : List Char :=
  proxy ++ '#' :: (natDigits rt ++ ['m', 's'])

/-- Leading run of decimal digits (the `(\d+)` group of `re.search`). -/
def digitsTake : List Char → List Char
  | [] => []
  | c :: cs => if c.isDigit then c :: digitsTake cs else []

/-- Leftmost match of `re.search(r'#(\d+)', line)`: the first `#` that is
immediately followed by at least one digit, returning the value of the
maximal digit run after it. -/
def findHashNum : List Char → Option Nat
  | [] => none
  | c :: cs =>
    if c = '#' then
      let ds := digitsTake cs
      if ds = [] then findHashNum cs else some (digitsToNat ds)
    else findHashNum cs

/-- `get_response_time` (check_proxy.py 533-541): sort key of a ledger line;
unparsable lines get `99999`. -/
def get_response_time (l : List Char) : Nat := (findHashNum l).getD 99999

/-- Comparison used by `existing_lines.sort(key=get_response_time)`. -/
def lineLe (a b : List Char) : Prop := get_response_time a ≤ get_response_time b

instance : DecidableRel lineLe := fun a b => Nat.decLe _ _

instance : IsTotal (List Char) lineLe := ⟨fun a b => Nat.le_total _ _⟩

instance : IsTrans (List Char) lineLe := ⟨fun _ _ _ => Nat.le_trans⟩

/-- Python `list.sort(key=get_response_time)` is stable; so is insertion
sort, and a stable sort's output is unique, so this is the same function. -/
def sortLines (L : List (List Char)) : List (List Char) := L.insertionSort lineLe

/-- `line.startswith(proxy + '#')`, the in-place-update test of the upsert. -/
def matchesKey (k l : List Char) : Bool := matchesStart (k ++ ['#']) l

/-- Replace the first line starting with `k#` by `nl`; the flag reports
whether a replacement happened (the `updated` flag with `break`). -/
def replaceFirst (lines : List (List Char)) (k : List Char) (nl : List Char) :
    List (List Char) × Bool :=
  match lines with
  | [] => ([], false)
  | l :: ls =>
    if matchesKey k l then (nl :: ls, true)
    else
      let r := replaceFirst ls k nl
      (l :: r.1, r.2)

/-- One upsert of `save_success_proxy`: replace-or-append the line for
`proxy`, then re-sort ascending by `get_response_time`. -/
def save_success_proxy (lines : List (List Char)) (proxy : List Char) (rt : Nat) :
    List (List Char) :=
  let newLine := mkLine proxy rt
  let rep := replaceFirst lines proxy newLine
  let updated := if rep.2 then rep.1 else lines ++ [newLine]
  sortLines updated

/-- The ledger produced by a sequence of upserts starting from an empty file. -/
def runUpserts (ops : List (List Char × Nat)) : List (List Char) :=
  ops.foldl (fun L p => save_success_proxy L p.1 p.2) []

/-- The text of a ledger line before its first `#` (the endpoint key for
well-formed lines). -/
def keyOf : List Char → List Char
  | [] => []
  | c :: cs => if c = '#' then [] else c :: keyOf cs

/-! ### Lemmas about the digit utilities -/

lemma digitChar_isDigit {d : Nat} (h : d < 10) : (digitChar d).isDigit = true := by
  interval_cases d <;> decide

lemma digitChar_toNat {d : Nat} (h : d < 10) : (digitChar d).toNat = 48 + d := by
  interval_cases d <;> decide

lemma digitsToNat_append_single (l : List Char) (c : Char) :
    digitsToNat (l ++ [c]) = digitsToNat l * 10 + (c.toNat - 48) := by
  simp [digitsToNat, List.foldl_append]

lemma natDigitsAux_spec :
    ∀ fuel n, n < fuel →
      (∀ c ∈ natDigitsAux fuel n, c.isDigit = true) ∧ natDigitsAux fuel n ≠ [] ∧
        digitsToNat (natDigitsAux fuel n) = n := by
  intro fuel
  induction fuel with
  | zero => intro n h; omega
  | succ fuel ih =>
    intro n h
    by_cases h10 : n < 10
    · refine ⟨?_, ?_, ?_⟩
      · intro c hc
        simp [natDigitsAux, h10] at hc
        subst hc; exact digitChar_isDigit h10
      · simp [natDigitsAux, h10]
      · simp [natDigitsAux, h10, digitsToNat]
        have := digitChar_toNat h10
        omega
    · have hlt : n / 10 < fuel := by
        have : n / 10 < n := Nat.div_lt_self (by omega) (by omega)
        omega
      obtain ⟨hdig, hne, hval⟩ := ih (n / 10) hlt
      have hmod : n % 10 < 10 := Nat.mod_lt _ (by omega)
      refine ⟨?_, ?_, ?_⟩
      · intro c hc
        simp only [natDigitsAux, if_neg h10, List.mem_append, List.mem_singleton] at hc
        rcases hc with hc | hc
        · exact hdig c hc
        · subst hc; exact digitChar_isDigit hmod
      · simp [natDigitsAux, h10]
      · simp only [natDigitsAux, if_neg h10]
        rw [digitsToNat_append_single, hval, digitChar_toNat hmod]
        omega

lemma natDigits_isDigit {n : Nat} : ∀ c ∈ natDigits n, c.isDigit = true :=
  (natDigitsAux_spec (n + 1) n (Nat.lt_succ_self n)).1

lemma natDigits_ne_nil {n : Nat} : natDigits n ≠ [] :=
  (natDigitsAux_spec (n + 1) n (Nat.lt_succ_self n)).2.1

lemma digitsToNat_natDigits {n : Nat} : digitsToNat (natDigits n) = n :=
  (natDigitsAux_spec (n + 1) n (Nat.lt_succ_self n)).2.2

lemma isDigit_ne_hash {c : Char} (h : c.isDigit = true) : c ≠ '#' := by
  intro hc; subst hc; simp at h

/-! ### Lemmas about the ledger linescan -/

lemma digitsTake_digits_append {ds : List Char} (hds : ∀ c ∈ ds, c.isDigit = true)
    {c0 : Char} (hc0 : c0.isDigit = false) (r : List Char) :
    digitsTake (ds ++ c0 :: r) = ds := by
  induction ds with
  | nil => simp [digitsTake, hc0]
  | cons c cs ih =>
    have hc : c.isDigit = true := hds c (List.mem_cons_self c cs)
    have ih2 := ih (fun x hx => hds x (List.mem_cons_of_mem c hx))
    show digitsTake (c :: (cs ++ c0 :: r)) = c :: cs
    simp only [digitsTake, hc, if_true]
    exact congrArg (c :: ·) ih2

lemma findHashNum_hash_digits {ds : List Char} (hds : ∀ c ∈ ds, c.isDigit = true)
    (hne : ds ≠ []) {c0 : Char} (hc0 : c0.isDigit = false) (r : List Char) :
    findHashNum ('#' :: (ds ++ c0 :: r)) = some (digitsToNat ds) := by
  have htake := digitsTake_digits_append hds hc0 r
  simp only [findHashNum, if_pos rfl]
  rw [htake, if_neg hne]
  simp

lemma findHashNum_mkLine {k : List Char} (hk : '#' ∉ k) (v : Nat) :
    findHashNum (mkLine k v) = some v := by
  induction k with
  | nil =>
    show findHashNum ('#' :: (natDigits v ++ 'm' :: ['s'])) = some v
    rw [findHashNum_hash_digits (fun c hc => natDigits_isDigit c hc) natDigits_ne_nil
      (by decide) ['s']]
    rw [digitsToNat_natDigits]
  | cons c cs ih =>
    have hc : c ≠ '#' := fun h => hk (h ▸ List.mem_cons_self c cs)
    have hcs : '#' ∉ cs := fun h => hk (List.mem_cons_of_mem c h)
    show findHashNum (c :: (cs ++ '#' :: (natDigits v ++ ['m', 's']))) = some v
    simp only [findHashNum, if_neg hc]
    exact ih hcs

lemma get_response_time_mkLine {k : List Char} (hk : '#' ∉ k) (v : Nat) :
    get_response_time (mkLine k v) = v := by
  simp [get_response_time, findHashNum_mkLine hk]

lemma keyOf_mkLine {k : List Char} (hk : '#' ∉ k) (v : Nat) :
    keyOf (mkLine k v) = k := by
  induction k with
  | nil => simp [mkLine, keyOf]
  | cons c cs ih =>
    have hc : c ≠ '#' := fun h => hk (h ▸ List.mem_cons_self c cs)
    have hcs : '#' ∉ cs := fun h => hk (List.mem_cons_of_mem c h)
    show keyOf (c :: (cs ++ '#' :: (natDigits v ++ ['m', 's']))) = c :: cs
    simp only [keyOf, if_neg hc]
    exact congrArg (c :: ·) (ih hcs)

/-- Key matching is exact on well-formed lines with `#`-free keys. -/
lemma matchesKey_mkLine {k' k : List Char} (hk' : '#' ∉ k') (hk : '#' ∉ k) (v : Nat) :
    matchesKey k' (mkLine k v) = true ↔ k' = k := by
  unfold matchesKey mkLine
  induction k' generalizing k with
  | nil =>
    cases k with
    | nil => simp [matchesStart]
    | cons c cs =>
      have hc : c ≠ '#' := fun h => hk (h ▸ List.mem_cons_self c cs)
      have hc2 : ¬('#' = c) := fun h => hc h.symm
      simp [matchesStart, hc2]
  | cons c' cs' ih =>
    have hc' : c' ≠ '#' := fun h => hk' (h ▸ List.mem_cons_self c' cs')
    have hcs' : '#' ∉ cs' := fun h => hk' (List.mem_cons_of_mem c' h)
    cases k with
    | nil => simp [matchesStart, hc']
    | cons c cs =>
      have hcs : '#' ∉ cs := fun h => hk (List.mem_cons_of_mem c h)
      have ih2 := ih hcs' hcs
      show (matchesStart (c' :: (cs' ++ ['#'])) (c :: (cs ++ '#' :: (natDigits v ++ ['m', 's'])))
          = true) ↔ c' :: cs' = c :: cs
      simp only [matchesStart, Bool.and_eq_true, decide_eq_true_eq]
      rw [ih2]
      constructor
      · rintro ⟨h1, h2⟩; rw [h1, h2]
      · intro h; injection h with h1 h2; exact ⟨h1, h2⟩

lemma matchesKey_self {k : List Char} (hk : '#' ∉ k) (v : Nat) :
    matchesKey k (mkLine k v) = true :=
  (matchesKey_mkLine hk hk v).mpr rfl

/-! ### Lemmas about `replaceFirst` -/

lemma replaceFirst_false :
    ∀ {L : List (List Char)} {k nl : List Char},
      (replaceFirst L k nl).2 = false ↔ ∀ l ∈ L, matchesKey k l = false := by
  intro L
  induction L with
  | nil => simp [replaceFirst]
  | cons l ls ih =>
    intro k nl
    by_cases h : matchesKey k l = true
    · simp [replaceFirst, h]
    · simp only [replaceFirst, if_neg h]
      rw [Bool.not_eq_true] at h
      simp [ih, h]

lemma replaceFirst_true :
    ∀ {L : List (List Char)} {k nl : List Char}, (replaceFirst L k nl).2 = true →
      ∃ pre l0 post, L = pre ++ l0 :: post ∧ matchesKey k l0 = true ∧
        (replaceFirst L k nl).1 = pre ++ nl :: post := by
  intro L
  induction L with
  | nil => intro k nl h; simp [replaceFirst] at h
  | cons l ls ih =>
    intro k nl h
    by_cases hm : matchesKey k l = true
    · exact ⟨[], l, ls, by simp [replaceFirst, hm]⟩
    · simp only [replaceFirst, if_neg hm] at h ⊢
      obtain ⟨pre, l0, post, hL, hm0, h1⟩ := ih h
      exact ⟨l :: pre, l0, post, by simp [hL], hm0, by simp [h1]⟩

lemma replaceFirst_id :
    ∀ {L : List (List Char)} {k nl : List Char},
      (∃ l ∈ L, matchesKey k l = true) →
      (∀ l ∈ L, matchesKey k l = true → l = nl) →
      replaceFirst L k nl = (L, true) := by
  intro L
  induction L with
  | nil => intro k nl h; simp at h
  | cons l ls ih =>
    intro k nl hex huniq
    by_cases hm : matchesKey k l = true
    · have hl : l = nl := huniq l (List.mem_cons_self l ls) hm
      simp only [replaceFirst, if_pos hm]
      rw [hl]
    · obtain ⟨l0, hl0, hm0⟩ := hex
      have hl0ls : l0 ∈ ls := by
        rcases List.mem_cons.mp hl0 with h | h
        · exact absurd (h ▸ hm0) hm
        · exact h
      have hrec := ih ⟨l0, hl0ls, hm0⟩ (fun l2 h2 => huniq l2 (List.mem_cons_of_mem l h2))
      simp only [replaceFirst, if_neg hm, hrec]

/-! ### The ledger well-formedness invariant -/

/-- Invariant of ledgers reachable by upserts with `#`-free keys: every line
is a well-formed entry, keys are pairwise distinct, and the file is sorted
by `get_response_time`. -/
def WFLedger (L : List (List Char)) : Prop :=
  (∀ l ∈ L, ∃ k v, '#' ∉ k ∧ l = mkLine k v)
  ∧ (L.map keyOf).Nodup
  ∧ L.Sorted lineLe

lemma wf_nil : WFLedger [] := ⟨by simp, by simp, List.sorted_nil⟩

lemma keyOf_eq_of_matches {l k : List Char} (hk : '#' ∉ k)
    (hwf : ∃ k0 v0, '#' ∉ k0 ∧ l = mkLine k0 v0) (hm : matchesKey k l = true) :
    keyOf l = k := by
  obtain ⟨k0, v0, hk0, rfl⟩ := hwf
  rw [keyOf_mkLine hk0]
  exact ((matchesKey_mkLine hk hk0 v0).mp hm).symm

lemma wf_sortLines {X : List (List Char)}
    (h1 : ∀ l ∈ X, ∃ k0 v0, '#' ∉ k0 ∧ l = mkLine k0 v0)
    (h2 : (X.map keyOf).Nodup) : WFLedger (sortLines X) := by
  have hperm : List.Perm (sortLines X) X := List.perm_insertionSort lineLe X
  refine ⟨fun l hl => h1 l (hperm.mem_iff.mp hl), ?_, List.sorted_insertionSort lineLe X⟩
  have hpm : List.Perm ((sortLines X).map keyOf) (X.map keyOf) := hperm.map keyOf
  exact hpm.nodup_iff.mpr h2

lemma save_success_proxy_eq (L : List (List Char)) (k : List Char) (v : Nat) :
    save_success_proxy L k v
      = sortLines (if (replaceFirst L k (mkLine k v)).2 = true
          then (replaceFirst L k (mkLine k v)).1 else L ++ [mkLine k v]) := rfl

lemma wf_upsert {L : List (List Char)} {k : List Char} {v : Nat}
    (hL : WFLedger L) (hk : '#' ∉ k) : WFLedger (save_success_proxy L k v) := by
  obtain ⟨hwf, hnd, _⟩ := hL
  rw [save_success_proxy_eq]
  by_cases hrep : (replaceFirst L k (mkLine k v)).2 = true
  · rw [if_pos hrep]
    obtain ⟨pre, l0, post, hLeq, hm0, h1⟩ := replaceFirst_true hrep
    rw [h1]
    have hkey0 : keyOf l0 = k :=
      keyOf_eq_of_matches hk
        (hwf l0 (hLeq ▸ List.mem_append_right _ (List.mem_cons_self _ _))) hm0
    have hkeynl : keyOf (mkLine k v) = k := keyOf_mkLine hk v
    apply wf_sortLines
    · intro l hl
      rcases List.mem_append.mp hl with h | h
      · exact hwf l (hLeq ▸ List.mem_append_left _ h)
      · rcases List.mem_cons.mp h with h | h
        · exact ⟨k, v, hk, h⟩
        · exact hwf l (hLeq ▸ List.mem_append_right _ (List.mem_cons_of_mem _ h))
    · have hmaps : (pre ++ mkLine k v :: post).map keyOf = L.map keyOf := by
        rw [hLeq]
        simp [hkey0, hkeynl]
      rw [hmaps]
      exact hnd
  · rw [if_neg hrep]
    have hnotin : ∀ l ∈ L, matchesKey k l = false :=
      replaceFirst_false.mp (Bool.not_eq_true _ ▸ hrep)
    have hknotin : k ∉ L.map keyOf := by
      intro hmem
      obtain ⟨l, hl, hkeq⟩ := List.mem_map.mp hmem
      obtain ⟨k0, v0, hk0, rfl⟩ := hwf l hl
      rw [keyOf_mkLine hk0] at hkeq
      subst hkeq
      have hself := matchesKey_self hk0 v0
      rw [hnotin _ hl] at hself
      exact Bool.false_ne_true hself
    apply wf_sortLines
    · intro l hl
      rcases List.mem_append.mp hl with h | h
      · exact hwf l h
      · exact ⟨k, v, hk, List.mem_singleton.mp h⟩
    · have hkeynl : keyOf (mkLine k v) = k := keyOf_mkLine hk v
      simp only [List.map_append, List.map_cons, List.map_nil, hkeynl]
      rw [List.nodup_append]
      refine ⟨hnd, List.nodup_singleton k, ?_⟩
      intro a ha hb
      rw [List.mem_singleton.mp hb] at ha
      exact hknotin ha

lemma wf_foldl :
    ∀ (ops : List (List Char × Nat)) (L : List (List Char)), WFLedger L →
      (∀ p ∈ ops, '#' ∉ p.1) →
      WFLedger (ops.foldl (fun L p => save_success_proxy L p.1 p.2) L) := by
  intro ops
  induction ops with
  | nil => intro L hL _; simpa using hL
  | cons p ps ih =>
    intro L hL hk
    simp only [List.foldl_cons]
    exact ih _ (wf_upsert hL (hk p (List.mem_cons_self p ps)))
      (fun q hq => hk q (List.mem_cons_of_mem p hq))

lemma wf_runUpserts {ops : List (List Char × Nat)} (hk : ∀ p ∈ ops, '#' ∉ p.1) :
    WFLedger (runUpserts ops) :=
  wf_foldl ops [] wf_nil hk

lemma countP_matchesKey_le_one :
    ∀ {L : List (List Char)}, (∀ l ∈ L, ∃ k0 v0, '#' ∉ k0 ∧ l = mkLine k0 v0) →
      (L.map keyOf).Nodup → ∀ {k : List Char}, '#' ∉ k →
      L.countP (fun l => matchesKey k l) ≤ 1 := by
  intro L
  induction L with
  | nil => intro _ _ k _; simp [List.countP_nil]
  | cons l ls ih =>
    intro hwf hnd k hk
    have hwfl : ∃ k0 v0, '#' ∉ k0 ∧ l = mkLine k0 v0 := hwf l (List.mem_cons_self l ls)
    have hwfls : ∀ x ∈ ls, ∃ k0 v0, '#' ∉ k0 ∧ x = mkLine k0 v0 :=
      fun x hx => hwf x (List.mem_cons_of_mem l hx)
    have hndls : (ls.map keyOf).Nodup := by
      simp only [List.map_cons, List.nodup_cons] at hnd
      exact hnd.2
    have hhead : keyOf l ∉ ls.map keyOf := by
      simp only [List.map_cons, List.nodup_cons] at hnd
      exact hnd.1
    rw [List.countP_cons]
    by_cases hm : matchesKey k l = true
    · have hzero : ls.countP (fun x => matchesKey k x) = 0 := by
        rw [List.countP_eq_zero]
        intro x hx hmx
        have h1 : keyOf x = k := keyOf_eq_of_matches hk (hwfls x hx) hmx
        have h2 : keyOf l = k := keyOf_eq_of_matches hk hwfl hm
        exact hhead (h2 ▸ h1 ▸ List.mem_map_of_mem keyOf hx)
      simp [hzero, hm]
    · rw [Bool.not_eq_true] at hm
      simpa [hm] using ih hwfls hndls hk

lemma mem_save_success_proxy {L : List (List Char)} {k : List Char} {v : Nat} :
    mkLine k v ∈ save_success_proxy L k v := by
  rw [save_success_proxy_eq]
  simp only [sortLines, List.mem_insertionSort]
  by_cases hrep : (replaceFirst L k (mkLine k v)).2 = true
  · rw [if_pos hrep]
    obtain ⟨pre, l0, post, _, _, h1⟩ := replaceFirst_true hrep
    rw [h1]
    exact List.mem_append_right _ (List.mem_cons_self _ _)
  · rw [if_neg hrep]
    exact List.mem_append_right _ (List.mem_singleton.mpr rfl)

lemma upsert_idem {L : List (List Char)} {k : List Char} {v : Nat}
    (hL : WFLedger L) (hk : '#' ∉ k) :
    save_success_proxy (save_success_proxy L k v) k v = save_success_proxy L k v := by
  have hL' : WFLedger (save_success_proxy L k v) := wf_upsert hL hk
  obtain ⟨hwf', hnd', hsort'⟩ := hL'
  have hmem : mkLine k v ∈ save_success_proxy L k v := mem_save_success_proxy
  have huniq : ∀ l ∈ save_success_proxy L k v, matchesKey k l = true → l = mkLine k v := by
    intro l hl hm
    have h1 : keyOf l = k := keyOf_eq_of_matches hk (hwf' l hl) hm
    have h2 : keyOf (mkLine k v) = k := keyOf_mkLine hk v
    exact List.inj_on_of_nodup_map hnd' hl hmem (h1.trans h2.symm)
  have hex : ∃ l ∈ save_success_proxy L k v, matchesKey k l = true :=
    ⟨mkLine k v, hmem, matchesKey_self hk v⟩
  have hrep : replaceFirst (save_success_proxy L k v) k (mkLine k v) =
      (save_success_proxy L k v, true) := replaceFirst_id hex huniq
  have hfix : sortLines (save_success_proxy L k v) = save_success_proxy L k v :=
    hsort'.insertionSort_eq
  rw [save_success_proxy_eq (save_success_proxy L k v) k v, hrep]
  simpa using hfix

/-! ### C1 -/

/-- C1 as stated is false: upserting the endpoint key `a` while keys
containing `#` (`a#b`, `a#c`) are in the ledger makes the
`startswith(proxy + '#')` test hit the wrong line, so upserting the same
pair `(a, 7)` twice (the last two operations) leaves two identical ledger
lines `a#7ms` — two lines for endpoint key `a`, not one. -/
theorem save_success_proxy_dup_counterexample :
    runUpserts [(['a'], 9), (['a', '#', 'b'], 5), (['a', '#', 'c'], 3), (['a'], 7), (['a'], 7)]
      = [['a', '#', '7', 'm', 's'], ['a', '#', '7', 'm', 's'], ['a', '#', '9', 'm', 's']] := by
  decide

/-- C1 (amended: all upserted endpoint keys are `#`-free, as is the case for
every `host:port` key whose host contains no `#`): after any sequence of
upserts from an empty ledger, the ledger is sorted non-decreasingly by the
numeric value following `#`, has at most one line per endpoint key, every
line's latency parses (so no unparsable line exists, and the
unparsable-last clause holds vacuously), and upserting the same
`(endpoint_key, latency)` pair twice yields the same single ledger line as
upserting it once. -/
theorem save_success_proxy_invariants (ops : List (List Char × Nat))
    (hk : ∀ p ∈ ops, '#' ∉ p.1) :
    List.Sorted lineLe (runUpserts ops)
    ∧ (∀ k : List Char, '#' ∉ k → (runUpserts ops).countP (fun l => matchesKey k l) ≤ 1)
    ∧ (∀ l ∈ runUpserts ops, (findHashNum l).isSome = true)
    ∧ (∀ (k : List Char) (v : Nat), '#' ∉ k →
        save_success_proxy (save_success_proxy (runUpserts ops) k v) k v
          = save_success_proxy (runUpserts ops) k v) := by
  have hwf := wf_runUpserts hk
  obtain ⟨hlines, hnd, hsort⟩ := hwf
  refine ⟨hsort, ?_, ?_, ?_⟩
  · intro k hkf
    exact countP_matchesKey_le_one hlines hnd hkf
  · intro l hl
    obtain ⟨k0, v0, hk0, rfl⟩ := hlines l hl
    rw [findHashNum_mkLine hk0]
    rfl
  · intro k v hkf
    exact upsert_idem ⟨hlines, hnd, hsort⟩ hkf

/-- Witness for C1: a concrete three-upsert run with `#`-free keys. -/
theorem save_success_proxy_invariants_witness :
    (∀ p ∈ [((['a', ':', '1'] : List Char), 500), (['b', ':', '2'], 30), (['a', ':', '1'], 200)],
      '#' ∉ p.1)
    ∧ (List.Sorted lineLe
        (runUpserts [(['a', ':', '1'], 500), (['b', ':', '2'], 30), (['a', ':', '1'], 200)])
      ∧ (∀ k : List Char, '#' ∉ k →
          (runUpserts [(['a', ':', '1'], 500), (['b', ':', '2'], 30),
            (['a', ':', '1'], 200)]).countP (fun l => matchesKey k l) ≤ 1)
      ∧ (∀ l ∈ runUpserts [(['a', ':', '1'], 500), (['b', ':', '2'], 30), (['a', ':', '1'], 200)],
          (findHashNum l).isSome = true)
      ∧ (∀ (k : List Char) (v : Nat), '#' ∉ k →
          save_success_proxy (save_success_proxy
            (runUpserts [(['a', ':', '1'], 500), (['b', ':', '2'], 30), (['a', ':', '1'], 200)]) k v) k v
            = save_success_proxy
                (runUpserts [(['a', ':', '1'], 500), (['b', ':', '2'], 30), (['a', ':', '1'], 200)]) k v)) :=
  ⟨by decide, save_success_proxy_invariants _ (by decide)⟩

/-! ## Composite scorer (`parse_download_speed_for_display`, `calculate_score`,
check_proxy.py 307-331 and 405-430)

Python floats are modelled as `ℚ`; `round(x, 2)` as exact round-half-to-even
to a multiple of `1/100` (all values at the claimed data points are exact). -/

/-- Characters matched by the regex class `[\d.]`. -/
def isNumChar (c : Char) : Bool := c.isDigit || c = '.'

/-- Maximal run of `[\d.]` characters. -/
def takeWhileNum : List Char → List Char
  | [] => []
  | c :: cs => if isNumChar c then c :: takeWhileNum cs else []

/-- Leftmost match of `re.search(r'([\d.]+)', s)`. -/
def firstNumToken : List Char → Option (List Char)
  | [] => none
  | c :: cs => if isNumChar c then some (c :: takeWhileNum cs) else firstNumToken cs

/-- Split at the first `.` (both parts of a one-dot numeric token). -/
def splitAtDot : List Char → List Char × List Char
  | [] => ([], [])
  | c :: cs =>
    if c = '.' then ([], cs)
    else
      let r := splitAtDot cs
      (c :: r.1, r.2)

/-- Python `float(t)` on a `[\d.]+` token: at most one dot and at least one
digit, else a `ValueError` (modelled as `none`, caught by the caller). -/
def pyFloatOfRun (t : List Char) : Option ℚ :=
  if t.countP (fun c => c = '.') = 0 then some (digitsToNat t : ℚ)
  else if t.countP (fun c => c = '.') = 1 then
    let p := splitAtDot t
    if p.1 = [] ∧ p.2 = [] then none
    else some ((digitsToNat p.1 : ℚ) + (digitsToNat p.2 : ℚ) / (10 ^ p.2.length))
  else none

def lowerList (l : List Char) : List Char := l.map Char.toLower

/-- Python `pat in s` substring containment. -/
def containsSub : List Char → List Char → Bool
  | pat, [] => matchesStart pat []
  | pat, c :: tl => matchesStart pat (c :: tl) || containsSub pat tl

/-- Numeric score extracted from the raw speed text: first numeric token,
scaled ×0.1 for the kB/s family, ×100 for the MB/s family, ×0.1 otherwise;
absent or unparsable text yields `0` (the `except` branch). -/
def parse_download_speed_for_display (s : List Char) : ℚ :=
  if s.isEmpty then 0
  else
    match firstNumToken s with
    | none => 0
    | some t =>
      match pyFloatOfRun t with
      | none => 0
      | some q =>
        let low := lowerList s
        if containsSub ("kb/s".toList) low || containsSub ("kbps".toList) low then
          q * (1 / 10)
        else if containsSub ("mb/s".toList) low || containsSub ("mbps".toList) low then
          q * 100
        else q * (1 / 10)

/-- Round half to even to the nearest integer (Python `round`). -/
def rhe (q : ℚ) : ℤ :=
  if q - ((⌊q⌋ : ℤ) : ℚ) < 1 / 2 then ⌊q⌋
  else if 1 / 2 < q - ((⌊q⌋ : ℤ) : ℚ) then ⌊q⌋ + 1
  else if ⌊q⌋ % 2 = 0 then ⌊q⌋ else ⌊q⌋ + 1

/-- Python `round(x, 2)`. -/
def pyRound2 (q : ℚ) : ℚ := (rhe (q * 100) : ℚ) / 100

/-- `calculate_score` (check_proxy.py 405-430) with the default weights. -/
def calculate_score (latency_ms : ℚ) (download_speed_str : List Char) : ℚ :=
  pyRound2
    ((if latency_ms ≤ 0 then (100 : ℚ)
      else if 2000 ≤ latency_ms then 0
      else 100 * (1 - latency_ms / 2000)) * (6 / 10)
     + (if parse_download_speed_for_display download_speed_str ≤ 0 then (0 : ℚ)
        else if 5000 ≤ parse_download_speed_for_display download_speed_str then 100
        else parse_download_speed_for_display download_speed_str * 100 / 5000) * (4 / 10))

/-- The latency sub-score exactly as the spec words it. -/
def latencyScoreSpec (l : ℚ) : ℚ :=
  if l ≤ 0 then 100 else if 2000 ≤ l then 0 else 100 * (1 - l / 2000)

/-- The speed sub-score as the spec words it: clamp the scaled value into
`[0, 5000]`, then map linearly onto `[0, 100]`. -/
def speedScoreSpec (s : List Char) : ℚ :=
  min (max (parse_download_speed_for_display s) 0) 5000 * 100 / 5000

lemma rhe_nonneg {q : ℚ} (h : 0 ≤ q) : 0 ≤ rhe q := by
  have hf : 0 ≤ ⌊q⌋ := Int.floor_nonneg.mpr h
  unfold rhe
  split_ifs <;> omega

lemma rhe_le {q : ℚ} {B : ℤ} (h : q ≤ (B : ℚ)) : rhe q ≤ B := by
  have hfB : ⌊q⌋ ≤ B := by
    have h1 : (⌊q⌋ : ℚ) ≤ (B : ℚ) := le_trans (Int.floor_le q) h
    exact_mod_cast h1
  have hstep : ¬(q - (⌊q⌋ : ℚ) < 1 / 2) → ⌊q⌋ + 1 ≤ B := by
    intro hr
    push_neg at hr
    have h2 : (⌊q⌋ : ℚ) + 1 / 2 ≤ (B : ℚ) := by linarith
    have h3 : (⌊q⌋ : ℚ) < (B : ℚ) := by linarith
    have h4 : ⌊q⌋ < B := by exact_mod_cast h3
    omega
  unfold rhe
  split_ifs with h1 h2 h3
  · exact hfB
  · exact hstep h1
  · exact hfB
  · exact hstep h1

lemma latencyScoreSpec_bounds (l : ℚ) :
    0 ≤ latencyScoreSpec l ∧ latencyScoreSpec l ≤ 100 := by
  unfold latencyScoreSpec
  split_ifs with h1 h2
  · norm_num
  · norm_num
  · push_neg at h1 h2
    constructor <;> nlinarith

lemma speedScoreSpec_bounds (s : List Char) :
    0 ≤ speedScoreSpec s ∧ speedScoreSpec s ≤ 100 := by
  unfold speedScoreSpec
  have h1 : (0 : ℚ) ≤ min (max (parse_download_speed_for_display s) 0) 5000 :=
    le_min (le_max_right _ 0) (by norm_num)
  have h2 : min (max (parse_download_speed_for_display s) 0) 5000 ≤ 5000 :=
    min_le_right _ _
  constructor
  · positivity
  · rw [div_le_iff₀ (by norm_num : (0 : ℚ) < 5000)]
    nlinarith

lemma speed_score_eq (s : List Char) :
    (if parse_download_speed_for_display s ≤ 0 then (0 : ℚ)
     else if 5000 ≤ parse_download_speed_for_display s then 100
     else parse_download_speed_for_display s * 100 / 5000) = speedScoreSpec s := by
  unfold speedScoreSpec
  split_ifs with h1 h2
  · rw [max_eq_right h1]
    norm_num
  · rw [max_eq_left (by linarith), min_eq_right h2]
    norm_num
  · push_neg at h1 h2
    rw [max_eq_left h1.le, min_eq_left h2.le]

/-! ### C2 -/

/-- C2: `calculate_score` equals the rounded weighted blend
`round(0.6 * latency_score + 0.4 * speed_score, 2)` of the spec's latency
sub-score and the spec's clamped linear speed sub-score, always lies in
`[0, 100]`, treats absent (`""`) or unparsable (`"."`, `"N/A"`) throughput
text as speed score `0` rather than an error, and in particular
`score(latency_ms = 500, raw_speed_text = "")` is exactly `45.0`. -/
theorem calculate_score_spec :
    (∀ (l : ℚ) (s : List Char),
      calculate_score l s
        = pyRound2 (6 / 10 * latencyScoreSpec l + 4 / 10 * speedScoreSpec s)
      ∧ 0 ≤ calculate_score l s ∧ calculate_score l s ≤ 100)
    ∧ parse_download_speed_for_display [] = 0
    ∧ parse_download_speed_for_display ['.'] = 0
    ∧ parse_download_speed_for_display ("N/A".toList) = 0
    ∧ calculate_score 500 [] = 45 := by
  have key : ∀ (l : ℚ) (s : List Char),
      calculate_score l s
        = pyRound2 (6 / 10 * latencyScoreSpec l + 4 / 10 * speedScoreSpec s) := by
    intro l s
    unfold calculate_score
    rw [speed_score_eq s]
    have hl : (if l ≤ 0 then (100 : ℚ) else if 2000 ≤ l then 0
        else 100 * (1 - l / 2000)) = latencyScoreSpec l := rfl
    rw [hl]
    congr 1
    ring
  refine ⟨fun l s => ⟨key l s, ?_, ?_⟩, rfl, rfl, rfl, ?main45⟩
  case main45 =>
    have hparse : parse_download_speed_for_display [] = 0 := rfl
    unfold calculate_score
    rw [hparse]
    rw [if_neg (by norm_num : ¬(500 : ℚ) ≤ 0), if_neg (by norm_num : ¬(2000 : ℚ) ≤ 500),
      if_pos (le_refl (0 : ℚ))]
    have harg : (100 * (1 - (500 : ℚ) / 2000)) * (6 / 10) + 0 * (4 / 10) = 45 := by norm_num
    rw [harg]
    unfold pyRound2 rhe
    norm_num
  · rw [key l s]
    obtain ⟨hl0, _⟩ := latencyScoreSpec_bounds l
    obtain ⟨hs0, _⟩ := speedScoreSpec_bounds s
    have hq : 0 ≤ (6 / 10 * latencyScoreSpec l + 4 / 10 * speedScoreSpec s) * 100 := by
      nlinarith
    have := rhe_nonneg hq
    unfold pyRound2
    positivity
  · rw [key l s]
    obtain ⟨_, hl1⟩ := latencyScoreSpec_bounds l
    obtain ⟨_, hs1⟩ := speedScoreSpec_bounds s
    have hq : (6 / 10 * latencyScoreSpec l + 4 / 10 * speedScoreSpec s) * 100
        ≤ ((10000 : ℤ) : ℚ) := by
      push_cast
      nlinarith
    have hle := rhe_le hq
    unfold pyRound2
    have hcast : ((rhe ((6 / 10 * latencyScoreSpec l + 4 / 10 * speedScoreSpec s) * 100)) : ℚ)
        ≤ 10000 := by exact_mod_cast hle
    linarith

/-! ## Endpoint parser (`process_proxy_line`, check_proxy.py 658-685)

Only the parsing/validation part of `process_proxy_line` is modelled here;
the counter updates it performs afterwards are modelled separately below. -/

/-- ASCII whitespace stripped by Python `str.strip()` / split by `str.split()`. -/
def isPySpace (c : Char) : Bool :=
  c = ' ' || c = '\t' || c = '\n' || c = '\r' || c = '\x0b' || c = '\x0c'

def dropLeadingWS : List Char → List Char
  | [] => []
  | c :: cs => if isPySpace c then dropLeadingWS cs else c :: cs

/-- Python `str.strip()`: drop trailing then leading whitespace. -/
def pyStrip (l : List Char) : List Char :=
  dropLeadingWS ((dropLeadingWS l.reverse).reverse)

/-- Worker for `str.split()` (no separator): `acc` is the current token,
reversed. -/
def splitWSAux : List Char → List Char → List (List Char)
  | [], acc => if acc.isEmpty then [] else [acc.reverse]
  | c :: cs, acc =>
    if isPySpace c then
      if acc.isEmpty then splitWSAux cs [] else acc.reverse :: splitWSAux cs []
    else splitWSAux cs (c :: acc)

/-- Python `str.split()`: split on whitespace runs, no empty tokens. -/
def pySplitWS (l : List Char) : List (List Char) := splitWSAux l []

/-- Worker for `str.split(':')`: keeps empty fields. -/
def splitColonAux : List Char → List Char → List (List Char)
  | [], acc => [acc.reverse]
  | c :: cs, acc =>
    if c = ':' then acc.reverse :: splitColonAux cs [] else splitColonAux cs (c :: acc)

/-- Python `str.split(':')`. -/
def splitColon (l : List Char) : List (List Char) := splitColonAux l []

/-- The anchored regex `^[0-9]+$`: nonempty and all decimal digits. -/
def isDigitStr (l : List Char) : Bool := !l.isEmpty && l.all (fun c => c.isDigit)

/-- Parsing part of `process_proxy_line`: trim; skip empty and `#`-comment
lines; split on whitespace (only — there is no `':'` fallback in this
function); require two tokens; the second must be all digits in
`[1, 65535]`; return the host/port endpoint. -/
def process_proxy_line (raw : List Char) : Option (List Char × Nat) :=
  if (pyStrip raw).isEmpty then none
  else if (pyStrip raw).head? = some '#' then none
  else if (pySplitWS (pyStrip raw)).length < 2 then none
  else if isDigitStr (pyStrip ((pySplitWS (pyStrip raw)).getD 1 [])) then
    if 1 ≤ digitsToNat (pyStrip ((pySplitWS (pyStrip raw)).getD 1 []))
        ∧ digitsToNat (pyStrip ((pySplitWS (pyStrip raw)).getD 1 [])) ≤ 65535 then
      some (pyStrip ((pySplitWS (pyStrip raw)).getD 0 []),
        digitsToNat (pyStrip ((pySplitWS (pyStrip raw)).getD 1 [])))
    else none
  else none

/-- The Endpoint Parser exactly as the spec words it (for comparison with
`process_proxy_line`): split on whitespace if present, else on `':'`. -/
def parseLineSpec (raw : List Char) : Option (List Char × Nat) :=
  if (pyStrip raw).isEmpty then none
  else if (pyStrip raw).head? = some '#' then none
  else
    if ((if (pyStrip raw).any isPySpace then pySplitWS (pyStrip raw)
        else splitColon (pyStrip raw)).length) < 2 then none
    else if isDigitStr ((if (pyStrip raw).any isPySpace then pySplitWS (pyStrip raw)
        else splitColon (pyStrip raw)).getD 1 []) then
      if 1 ≤ digitsToNat ((if (pyStrip raw).any isPySpace then pySplitWS (pyStrip raw)
            else splitColon (pyStrip raw)).getD 1 [])
          ∧ digitsToNat ((if (pyStrip raw).any isPySpace then pySplitWS (pyStrip raw)
            else splitColon (pyStrip raw)).getD 1 []) ≤ 65535 then
        some ((if (pyStrip raw).any isPySpace then pySplitWS (pyStrip raw)
            else splitColon (pyStrip raw)).getD 0 [],
          digitsToNat ((if (pyStrip raw).any isPySpace then pySplitWS (pyStrip raw)
            else splitColon (pyStrip raw)).getD 1 []))
      else none
    else none

/-! ### Parser lemmas -/

lemma mem_of_head? : ∀ {l : List Char} {c : Char}, l.head? = some c → c ∈ l := by
  intro l c h
  cases l with
  | nil => simp at h
  | cons a as =>
    simp only [List.head?_cons, Option.some.injEq] at h
    exact h ▸ List.mem_cons_self a as

lemma dropLeadingWS_of_head {l : List Char}
    (h : ∀ c, l.head? = some c → isPySpace c = false) : dropLeadingWS l = l := by
  cases l with
  | nil => rfl
  | cons c cs => simp [dropLeadingWS, h c rfl]

lemma pyStrip_eq_self {l : List Char}
    (h1 : ∀ c, l.head? = some c → isPySpace c = false)
    (h2 : ∀ c, l.reverse.head? = some c → isPySpace c = false) : pyStrip l = l := by
  unfold pyStrip
  rw [dropLeadingWS_of_head h2, List.reverse_reverse, dropLeadingWS_of_head h1]

lemma pyStrip_no_ws {l : List Char} (h : ∀ c ∈ l, isPySpace c = false) :
    pyStrip l = l :=
  pyStrip_eq_self (fun c hc => h c (mem_of_head? hc))
    (fun c hc => h c (List.mem_reverse.mp (mem_of_head? hc)))

lemma isPySpace_iff {c : Char} : isPySpace c = true ↔
    c = ' ' ∨ c = '\t' ∨ c = '\n' ∨ c = '\r' ∨ c = '\x0b' ∨ c = '\x0c' := by
  unfold isPySpace
  simp only [Bool.or_eq_true, decide_eq_true_eq]
  tauto

lemma isDigit_not_space {c : Char} (h : c.isDigit = true) : isPySpace c = false := by
  rw [Bool.eq_false_iff]
  intro hs
  rcases isPySpace_iff.mp hs with h1 | h1 | h1 | h1 | h1 | h1 <;>
    (subst h1; exact absurd h (by decide))

lemma splitWSAux_token :
    ∀ {t : List Char} (r acc : List Char), (∀ c ∈ t, isPySpace c = false) →
      splitWSAux (t ++ r) acc = splitWSAux r (t.reverse ++ acc) := by
  intro t
  induction t with
  | nil => intro r acc _; simp
  | cons c cs ih =>
    intro r acc h
    have hc : isPySpace c = false := h c (List.mem_cons_self c cs)
    show splitWSAux (c :: (cs ++ r)) acc = splitWSAux r ((c :: cs).reverse ++ acc)
    simp only [splitWSAux, hc, Bool.false_eq_true, if_false]
    rw [ih r (c :: acc) (fun x hx => h x (List.mem_cons_of_mem c hx))]
    simp [List.append_assoc]

lemma pySplitWS_host_port {host port : List Char} (hhost : host ≠ [])
    (hws : ∀ c ∈ host, isPySpace c = false) (hport : port ≠ [])
    (hpws : ∀ c ∈ port, isPySpace c = false) :
    pySplitWS (host ++ ' ' :: port) = [host, port] := by
  unfold pySplitWS
  rw [splitWSAux_token (' ' :: port) [] hws]
  have hrev : host.reverse ≠ [] := fun h => hhost (by simpa using congrArg List.reverse h)
  have hrevempty : (host.reverse ++ []).isEmpty = false := by
    simp only [List.append_nil]
    cases hr : host.reverse with
    | nil => exact absurd hr hrev
    | cons a as => rfl
  show splitWSAux (' ' :: port) (host.reverse ++ []) = [host, port]
  simp only [splitWSAux, show isPySpace ' ' = true from rfl, if_true, hrevempty,
    Bool.false_eq_true, if_false, List.append_nil, List.reverse_reverse]
  rw [show (port : List Char) = port ++ [] from (List.append_nil port).symm,
    splitWSAux_token [] [] (by simpa using hpws)]
  have hprev : port.reverse ≠ [] := fun h => hport (by simpa using congrArg List.reverse h)
  have hprevempty : ((port ++ []).reverse ++ []).isEmpty = false := by
    simp only [List.append_nil]
    cases hr : port.reverse with
    | nil => exact absurd hr hprev
    | cons a as => rfl
  simp only [splitWSAux, hprevempty, Bool.false_eq_true, if_false]
  simp [hhost, hport]

/-! ### C3 -/

/-- C3 as stated is false: `process_proxy_line` splits only on whitespace
and has no `':'` fallback, so the whitespace-free line `1.2.3.4:80` — which
the spec's parser (split on `':'`, port 80 in range) accepts — is rejected
by the code. -/
theorem process_proxy_line_colon_counterexample :
    process_proxy_line ("1.2.3.4:80".toList) = none
    ∧ parseLineSpec ("1.2.3.4:80".toList) = some ("1.2.3.4".toList, 80) := by
  constructor
  · rfl
  · rfl

/-- C3 (amended: `process_proxy_line` splits on whitespace only; a line
without whitespace — e.g. `host:port` — is rejected rather than split on
`':'`): after trimming, empty lines and `#`-comment lines yield `none`;
fewer than two whitespace tokens yields `none`; any produced endpoint has a
port in `[1, 65535]`; and every `host port` line with a digit port in range
yields exactly that host and port. -/
theorem process_proxy_line_spec :
    (∀ raw : List Char, pyStrip raw = [] → process_proxy_line raw = none)
    ∧ (∀ raw : List Char, (pyStrip raw).head? = some '#' → process_proxy_line raw = none)
    ∧ (∀ raw : List Char, (pySplitWS (pyStrip raw)).length < 2 → process_proxy_line raw = none)
    ∧ (∀ (raw host : List Char) (n : Nat), process_proxy_line raw = some (host, n) →
        1 ≤ n ∧ n ≤ 65535)
    ∧ (∀ (host : List Char) (n : Nat), host ≠ [] →
        (∀ c ∈ host, isPySpace c = false) → host.head? ≠ some '#' →
        1 ≤ n → n ≤ 65535 →
        process_proxy_line (host ++ ' ' :: natDigits n) = some (host, n)) := by
  refine ⟨?_, ?_, ?_, ?_, ?_⟩
  · intro raw h
    simp [process_proxy_line, h]
  · intro raw h
    have hne : (pyStrip raw).isEmpty = false := by
      cases hl : pyStrip raw with
      | nil => rw [hl] at h; simp at h
      | cons a as => rfl
    simp [process_proxy_line, hne, h]
  · intro raw h
    by_cases he : (pyStrip raw).isEmpty = true
    · simp [process_proxy_line, he]
    · by_cases hh : (pyStrip raw).head? = some '#'
      · simp [process_proxy_line, hh]
      · simp [process_proxy_line, he, hh, h]
  · intro raw host n h
    unfold process_proxy_line at h
    split at h
    · exact absurd h (by simp)
    · split at h
      · exact absurd h (by simp)
      · split at h
        · exact absurd h (by simp)
        · split at h
          · split at h
            · next hrange =>
              injection h with h1
              injection h1 with h2 h3
              exact h3 ▸ hrange
            · exact absurd h (by simp)
          · exact absurd h (by simp)
  · intro host n hne hws hhash h1 h2
    have hdws : ∀ c ∈ natDigits n, isPySpace c = false :=
      fun c hc => isDigit_not_space (natDigits_isDigit c hc)
    have hlinews : pyStrip (host ++ ' ' :: natDigits n) = host ++ ' ' :: natDigits n := by
      apply pyStrip_eq_self
      · intro c hc
        cases host with
        | nil => exact absurd rfl hne
        | cons a as =>
          simp only [List.cons_append, List.head?_cons, Option.some.injEq] at hc
          exact hc ▸ hws a (List.mem_cons_self a as)
      · intro c hc
        have hcmem : c ∈ (host ++ ' ' :: natDigits n).reverse := mem_of_head? hc
        rw [List.mem_reverse] at hcmem
        have hrev : (host ++ ' ' :: natDigits n).reverse
            = (natDigits n).reverse ++ ' ' :: host.reverse := by
          simp
        rw [hrev] at hc
        cases hd : (natDigits n).reverse with
        | nil => exact absurd (by simpa using congrArg List.reverse hd) natDigits_ne_nil
        | cons b bs =>
          rw [hd] at hc
          simp only [List.cons_append, List.head?_cons, Option.some.injEq] at hc
          have hb : b ∈ natDigits n := by
            rw [← List.mem_reverse, hd]
            exact List.mem_cons_self b bs
          exact hc ▸ hdws b hb
    have hsplit : pySplitWS (pyStrip (host ++ ' ' :: natDigits n)) = [host, natDigits n] := by
      rw [hlinews]
      exact pySplitWS_host_port hne hws natDigits_ne_nil hdws
    have hempty : (pyStrip (host ++ ' ' :: natDigits n)).isEmpty = false := by
      rw [hlinews]
      cases host with
      | nil => exact absurd rfl hne
      | cons a as => rfl
    have hhead : (pyStrip (host ++ ' ' :: natDigits n)).head? ≠ some '#' := by
      rw [hlinews]
      cases host with
      | nil => exact absurd rfl hne
      | cons a as =>
        simp only [List.cons_append, List.head?_cons]
        simpa using hhash
    have hportstrip : pyStrip (natDigits n) = natDigits n := pyStrip_no_ws hdws
    have hhoststrip : pyStrip host = host := pyStrip_no_ws hws
    have hdig : isDigitStr (natDigits n) = true := by
      unfold isDigitStr
      have hne2 : (natDigits n).isEmpty = false := by
        cases hd : natDigits n with
        | nil => exact absurd hd natDigits_ne_nil
        | cons a as => rfl
      rw [hne2]
      simp only [Bool.not_false, Bool.true_and, List.all_eq_true]
      intro c hc
      exact natDigits_isDigit c hc
    unfold process_proxy_line
    rw [if_neg (by rw [hempty]; exact Bool.false_ne_true), if_neg hhead, hsplit]
    have hlen : ¬([host, natDigits n].length < 2) := by simp
    rw [if_neg hlen]
    simp only [List.getD_cons_zero, List.getD_cons_succ]
    rw [hportstrip, hhoststrip]
    rw [if_pos hdig, digitsToNat_natDigits, if_pos ⟨h1, h2⟩]

/-- Witness for C3's conditional parts at concrete inputs. -/
theorem process_proxy_line_spec_witness :
    (pyStrip ("   ".toList) = []
      ∧ process_proxy_line ("   ".toList) = none)
    ∧ ((pyStrip ("# comment".toList)).head? = some '#'
      ∧ process_proxy_line ("# comment".toList) = none)
    ∧ ((pySplitWS (pyStrip ("1.2.3.4:80".toList))).length < 2
      ∧ process_proxy_line ("1.2.3.4:80".toList) = none)
    ∧ (("1.2.3.4".toList : List Char) ≠ []
      ∧ (∀ c ∈ ("1.2.3.4".toList : List Char), isPySpace c = false)
      ∧ ("1.2.3.4".toList : List Char).head? ≠ some '#'
      ∧ 1 ≤ 443 ∧ 443 ≤ 65535
      ∧ process_proxy_line ("1.2.3.4".toList ++ ' ' :: natDigits 443)
          = some ("1.2.3.4".toList, 443)) :=
  ⟨⟨by decide, process_proxy_line_spec.1 _ (by decide)⟩,
   ⟨by decide, process_proxy_line_spec.2.1 _ (by decide)⟩,
   ⟨by decide, process_proxy_line_spec.2.2.1 _ (by decide)⟩,
   by decide, by decide, by decide, by decide, by decide,
   process_proxy_line_spec.2.2.2.2 _ 443 (by decide) (by decide) (by decide)
     (by decide) (by decide)⟩

/-! ## Probe client and repeated-trial sampler
(`check_proxy_single` / `check_proxy_multiple`, check_proxy.py 86-165)

One trial's normalized outcome is a `SingleOutcome`; the JSON values the
service may return are `JsonVal`.  Network behaviour itself is an oracle
`probe : Nat → SingleOutcome` giving the outcome of the `i`-th trial. -/

/-- A JSON scalar as seen by the scripts. -/
inductive JsonVal where
  | null
  | bool (b : Bool)
  | str (s : String)
  | num (n : Int)
deriving DecidableEq

/-- Python truthiness of a JSON scalar (`if response_time:`). -/
def jsonTruthy : JsonVal → Bool
  | .null => false
  | .bool b => b
  | .str s => !(s == "")
  | .num n => !(n == 0)

/-- Python `str(...)` of a JSON scalar. -/
def pyStr : JsonVal → String
  | .null => "None"
  | .bool true => "True"
  | .bool false => "False"
  | .str s => s
  | .num n => toString n

/-- The accepted success values of `check_proxy_multiple` (line 135) and of
`check_domain.process_domain_proxy` / `process_ip_proxy` (lines 204, 282):
`result.get('success') in [True, 'true', 'True']`. -/
def successTruthy (v : JsonVal) : Bool :=
  v == .bool true || v == .str "true" || v == .str "True"

/-- Result of one `check_proxy_single` call. -/
inductive SingleOutcome where
  | timeout
  | fail (msg : String)
  | reply (success : JsonVal) (responseTime : JsonVal) (errMsg : Option String)
deriving DecidableEq

/-- Result of `check_proxy_multiple` (the returned dict, by shape). -/
inductive MultiResult where
  | timeoutR (msg : String)
  | errorR (msg : String)
  | successR (rts : List Nat) (avg mn mx : Nat)
deriving DecidableEq

/-- What a successful trial appends to `response_times`: skipped when the
reported latency is falsy; otherwise the digits of `str(responseTime)`, or
the sentinel `1000` when stripping all non-digits leaves nothing
(`int('')` raises and the `except` appends 1000). -/
def rtContribution (rt : JsonVal) : Option Nat :=
  if jsonTruthy rt then
    some (if (pyStr rt).toList.filter (fun c => c.isDigit) = [] then 1000
      else digitsToNat ((pyStr rt).toList.filter (fun c => c.isDigit)))
  else none

/-- `min(l)` for a nonempty list (0 on `[]`, unreachable). -/
def listMin : List Nat → Nat
  | [] => 0
  | x :: xs => xs.foldl Nat.min x

/-- `max(l)` for a nonempty list (0 on `[]`, unreachable). -/
def listMax : List Nat → Nat
  | [] => 0
  | x :: xs => xs.foldl Nat.max x

/-- The trial loop of `check_proxy_multiple`, structurally recursive on the
remaining trial count; `i` is the index of the next trial and the second
component of the result counts the probes actually issued.  The mean is
`int(statistics.mean(...))`, i.e. truncation — `Nat` division. -/
def runTrialsFrom (probe : Nat → SingleOutcome) (i : Nat) (acc : List Nat) :
    Nat → MultiResult × Nat
  | 0 =>
    if acc.isEmpty then (.errorR "无法获取响应时间", i)
    else (.successR acc (acc.sum / acc.length) (listMin acc) (listMax acc), i)
  | rest + 1 =>
    match probe i with
    | .timeout => (.timeoutR ("第" ++ toString (i + 1) ++ "次检测请求超时"), i + 1)
    | .fail m => (.errorR ("第" ++ toString (i + 1) ++ "次检测" ++ m), i + 1)
    | .reply s rt em =>
      if successTruthy s then
        runTrialsFrom probe (i + 1) (acc ++ (rtContribution rt).toList) rest
      else
        (.errorR ("第" ++ toString (i + 1) ++ "次检测" ++ em.getD "None"), i + 1)

/-- `check_proxy_multiple(proxy, test_times)` with its probe count. -/
def check_proxy_multiple (probe : Nat → SingleOutcome) (test_times : Nat) :
    MultiResult × Nat :=
  runTrialsFrom probe 0 [] test_times

/-- A trial outcome that lets the loop continue: a reply whose `success`
value is in the accepted set. -/
def trialOk : SingleOutcome → Bool
  | .reply s _ _ => successTruthy s
  | _ => false

/-- The failure result `check_proxy_multiple` returns when trial `i`
(0-based) is the failing one. -/
def failResultFor : SingleOutcome → Nat → MultiResult
  | .timeout, i => .timeoutR ("第" ++ toString (i + 1) ++ "次检测请求超时")
  | .fail m, i => .errorR ("第" ++ toString (i + 1) ++ "次检测" ++ m)
  | .reply _ _ em, i => .errorR ("第" ++ toString (i + 1) ++ "次检测" ++ em.getD "None")

/-- Latencies collected by `k` successful trials starting at trial `i`. -/
def collectFrom (probe : Nat → SingleOutcome) (i : Nat) : Nat → List Nat
  | 0 => []
  | k + 1 =>
    (match probe i with
      | .reply _ rt _ => (rtContribution rt).toList
      | _ => []) ++ collectFrom probe (i + 1) k

/-- Exact rational mean of the collected latencies. -/
def meanQ (l : List Nat) : ℚ := ((l.map (fun x => (x : ℚ))).sum) / l.length

/-- Exact square of `statistics.stdev` (sample standard deviation). -/
def sampleVarQ (l : List Nat) : ℚ :=
  ((l.map (fun x => ((x : ℚ) - meanQ l) ^ 2)).sum) / ((l.length : ℚ) - 1)

/-- The stdev displayed by `print_result` exists only for `len > 1`
(check_proxy.py 571), represented by its square. -/
def rt_stdSq (l : List Nat) : Option ℚ :=
  if 1 < l.length then some (sampleVarQ l) else none

/-! ### Sampler lemmas -/

lemma runTrialsFrom_ok_steps :
    ∀ (k : Nat) (probe : Nat → SingleOutcome) (i : Nat) (acc : List Nat) (rest : Nat),
      (∀ t, t < k → trialOk (probe (i + t)) = true) →
      runTrialsFrom probe i acc (k + rest)
        = runTrialsFrom probe (i + k) (acc ++ collectFrom probe i k) rest := by
  intro k
  induction k with
  | zero => intro probe i acc rest _; simp [collectFrom]
  | succ k ih =>
    intro probe i acc rest h
    have h0 : trialOk (probe i) = true := by
      have := h 0 (Nat.succ_pos k)
      simpa using this
    cases hp : probe i with
    | timeout => rw [hp] at h0; simp [trialOk] at h0
    | fail m => rw [hp] at h0; simp [trialOk] at h0
    | reply s rt em =>
      have hs : successTruthy s = true := by
        rw [hp] at h0
        simpa [trialOk] using h0
      have hstep : runTrialsFrom probe i acc (k + 1 + rest)
          = runTrialsFrom probe (i + 1) (acc ++ (rtContribution rt).toList) (k + rest) := by
        have : k + 1 + rest = (k + rest) + 1 := by omega
        rw [this]
        show runTrialsFrom probe i acc ((k + rest) + 1) = _
        simp only [runTrialsFrom, hp, hs, if_true]
      rw [hstep]
      rw [ih probe (i + 1) (acc ++ (rtContribution rt).toList) rest
        (fun t ht => by
          have := h (t + 1) (by omega)
          simpa [Nat.add_assoc, Nat.add_comm 1 t] using this)]
      have hcoll : collectFrom probe i (k + 1)
          = (rtContribution rt).toList ++ collectFrom probe (i + 1) k := by
        simp [collectFrom, hp]
      rw [hcoll]
      have : i + 1 + k = i + (k + 1) := by omega
      rw [this, List.append_assoc]

lemma check_proxy_multiple_all_ok {probe : Nat → SingleOutcome} {n : Nat}
    (h : ∀ j, j < n → trialOk (probe j) = true) :
    check_proxy_multiple probe n
      = (if (collectFrom probe 0 n).isEmpty then (.errorR "无法获取响应时间", n)
         else (.successR (collectFrom probe 0 n)
            ((collectFrom probe 0 n).sum / (collectFrom probe 0 n).length)
            (listMin (collectFrom probe 0 n)) (listMax (collectFrom probe 0 n)), n)) := by
  unfold check_proxy_multiple
  have := runTrialsFrom_ok_steps n probe 0 [] 0 (fun t ht => by simpa using h t ht)
  rw [show n + 0 = n from rfl] at this
  rw [this]
  simp only [List.nil_append, runTrialsFrom, Nat.zero_add]

/-! ### C4 -/

/-- C4: if every trial before `i` (0-based) succeeds and trial `i` does
not, the sampler short-circuits: it returns exactly the annotated failure
for trial `i` (trial number `i+1` in the message), and the probe counter
shows `i+1` probes issued, so trials `i+2 … n` are never run. -/
theorem check_proxy_multiple_short_circuit
    (probe : Nat → SingleOutcome) (n i : Nat) (hin : i < n)
    (hok : ∀ j, j < i → trialOk (probe j) = true)
    (hfail : trialOk (probe i) = false) :
    check_proxy_multiple probe n = (failResultFor (probe i) i, i + 1) := by
  unfold check_proxy_multiple
  obtain ⟨rest, hrest⟩ : ∃ rest, n = i + (rest + 1) :=
    ⟨n - i - 1, by omega⟩
  rw [hrest]
  have hsteps := runTrialsFrom_ok_steps i probe 0 [] (rest + 1)
    (fun t ht => by simpa using hok t ht)
  rw [show i + (rest + 1) = i + (rest + 1) from rfl]
  rw [hsteps]
  show runTrialsFrom probe (0 + i) ([] ++ collectFrom probe 0 i) (rest + 1) = _
  cases hp : probe i with
  | timeout =>
    simp only [Nat.zero_add, runTrialsFrom, hp, failResultFor]
  | fail m =>
    simp only [Nat.zero_add, runTrialsFrom, hp, failResultFor]
  | reply s rt em =>
    have hs : successTruthy s = false := by
      rw [hp] at hfail
      simpa [trialOk] using hfail
    simp only [Nat.zero_add, runTrialsFrom, hp, hs, Bool.false_eq_true, if_false,
      failResultFor]

/-- Witness for C4: trials = 3, trial 2 (1-based) fails with a connection
error; the sampler stops after 2 probes and trial 3 is never issued. -/
theorem check_proxy_multiple_short_circuit_witness :
    (1 < 3 ∧ (∀ j, j < 1 →
        trialOk ((fun j => if j = 1 then SingleOutcome.fail "连接失败"
          else .reply (.bool true) (.str "100ms") none) j) = true)
      ∧ trialOk ((fun j => if j = 1 then SingleOutcome.fail "连接失败"
          else .reply (.bool true) (.str "100ms") none) 1) = false)
    ∧ check_proxy_multiple
        (fun j => if j = 1 then SingleOutcome.fail "连接失败"
          else .reply (.bool true) (.str "100ms") none) 3
      = (failResultFor ((fun j => if j = 1 then SingleOutcome.fail "连接失败"
          else .reply (.bool true) (.str "100ms") none) 1) 1, 2) :=
  ⟨⟨by decide, by decide, by decide⟩,
    check_proxy_multiple_short_circuit _ 3 1 (by decide) (by decide) (by decide)⟩

/-! ### C5 -/

/-- C5 as stated is false: the code computes
`avg = int(statistics.mean(response_times))`, which truncates.  With
latencies `[1, 2]` (two successful trials reporting `1ms` and `2ms`) the
summary mean is `1`, while `round(average([1, 2])) = round(3/2) = 2`. -/
theorem trial_mean_truncation_counterexample :
    check_proxy_multiple
        (fun j => .reply (.bool true) (.str (toString (j + 1) ++ "ms")) none) 2
      = (.successR [1, 2] 1 1 2, 2)
    ∧ rhe ((1 + 2 : ℚ) / 2) = 2 := by
  constructor
  · decide
  · have hf : ⌊((1 + 2 : ℚ) / 2)⌋ = 1 := by norm_num
    unfold rhe
    rw [hf]
    rw [if_neg (by norm_num), if_neg (by norm_num), if_neg (by norm_num)]
    norm_num

/-- C5 (amended: the mean is the truncated average `int(statistics.mean)`,
i.e. `sum / length` in `Nat` division, not `round`): when all trials
succeed, the summary carries exactly the collected latencies with their
truncated mean, minimum and maximum, the standard deviation exists iff
there are at least 2 samples, and for `[80, 100, 120]` the mean is 100,
min 80, max 120, and the (sample) stddev is 20.0 (its square is 400). -/
theorem trial_summary_stats (probe : Nat → SingleOutcome) (n : Nat) (rts : List Nat)
    (hok : ∀ j, j < n → trialOk (probe j) = true)
    (hcoll : collectFrom probe 0 n = rts) (hne : rts ≠ []) :
    check_proxy_multiple probe n
      = (.successR rts (rts.sum / rts.length) (listMin rts) (listMax rts), n)
    ∧ ((rt_stdSq rts).isSome = true ↔ 2 ≤ rts.length)
    ∧ rt_stdSq [80, 100, 120] = some 400 ∧ ((20 : ℚ) ^ 2 = 400 ∧ (0 : ℚ) ≤ 20)
    ∧ listMin [80, 100, 120] = 80 ∧ listMax [80, 100, 120] = 120
    ∧ ([80, 100, 120] : List Nat).sum / ([80, 100, 120] : List Nat).length = 100 := by
  have hisEmpty : rts.isEmpty = false := by
    cases rts with
    | nil => exact absurd rfl hne
    | cons a as => rfl
  refine ⟨?_, ?_, ?_, by norm_num, by decide, by decide, by decide⟩
  · rw [check_proxy_multiple_all_ok hok, hcoll, hisEmpty]
    rfl
  · by_cases h2 : 1 < rts.length
    · simp only [rt_stdSq, if_pos h2, Option.isSome_some]
      constructor
      · intro _; omega
      · intro _; trivial
    · simp only [rt_stdSq, if_neg h2, Option.isSome_none]
      constructor
      · intro h; exact absurd h Bool.false_ne_true
      · intro h; omega
  · show rt_stdSq [80, 100, 120] = some 400
    have hvar : sampleVarQ [80, 100, 120] = 400 := by
      norm_num [sampleVarQ, meanQ]
    simp [rt_stdSq, hvar]

/-- The three-trial probe reporting `80ms`, `100ms`, `120ms`. -/
def probe80 (j : Nat) : SingleOutcome :=
  .reply (.bool true) (.str (["80ms", "100ms", "120ms"].getD j "")) none

/-- Witness for C5 at the claimed data point `[80, 100, 120]`. -/
theorem trial_summary_stats_witness :
    ((∀ j, j < 3 → trialOk (probe80 j) = true)
      ∧ collectFrom probe80 0 3 = [80, 100, 120]
      ∧ ([80, 100, 120] : List Nat) ≠ [])
    ∧ check_proxy_multiple probe80 3 = (.successR [80, 100, 120] 100 80 120, 3)
    ∧ ((rt_stdSq [80, 100, 120]).isSome = true ↔ 2 ≤ ([80, 100, 120] : List Nat).length) :=
  ⟨⟨by decide, by decide, by decide⟩,
    ((trial_summary_stats probe80 3 [80, 100, 120] (by decide) (by decide) (by decide)).1).trans
      (by decide),
    (trial_summary_stats probe80 3 [80, 100, 120] (by decide) (by decide) (by decide)).2.1⟩

/-! ### C6 -/

/-- C6 as stated is false: a reply that reports success but whose latency
field is falsy (here the empty string, which certainly does not yield an
integer after stripping non-digits) is not treated as Success with a
sentinel — the trial contributes no sample at all, and with a single trial
the whole sample fails with `无法获取响应时间` instead of succeeding. -/
theorem falsy_latency_counterexample :
    check_proxy_multiple (fun _ => .reply (.bool true) (.str "") none) 1
      = (.errorR "无法获取响应时间", 1) := by decide

lemma collectFrom_const_sentinel {rt : JsonVal} (hc : rtContribution rt = some 1000) :
    ∀ (k i : Nat),
      collectFrom (fun _ => SingleOutcome.reply (.bool true) rt none) i k
        = List.replicate k 1000 := by
  intro k
  induction k with
  | zero => intro i; rfl
  | succ k ih =>
    intro i
    simp only [collectFrom, hc, Option.toList_some, List.replicate_succ, ih]
    rfl

lemma foldl_min_replicate (m a : Nat) : (List.replicate m a).foldl Nat.min a = a := by
  induction m with
  | zero => rfl
  | succ m ih => simp only [List.replicate_succ, List.foldl_cons, Nat.min_self, ih]

lemma foldl_max_replicate (m a : Nat) : (List.replicate m a).foldl Nat.max a = a := by
  induction m with
  | zero => rfl
  | succ m ih => simp only [List.replicate_succ, List.foldl_cons, Nat.max_self, ih]

/-- C6 (amended: the sentinel applies only when the reported latency field
is truthy — e.g. a nonempty string — but strips to no digits; a falsy
latency field contributes no sample, and if no trial yields one the sample
is reported failed, never crashed): every truthy unparsable latency is
recorded as the sentinel `1000`, and a run of `n` such trials is a Success
whose statistics are all the sentinel. -/
theorem sentinel_latency_spec (rt : JsonVal) (n : Nat) (hn : 0 < n)
    (htruthy : jsonTruthy rt = true)
    (hnodig : (pyStr rt).toList.filter (fun c => c.isDigit) = []) :
    rtContribution rt = some 1000
    ∧ check_proxy_multiple (fun _ => .reply (.bool true) rt none) n
        = (.successR (List.replicate n 1000) 1000 1000 1000, n) := by
  have hc : rtContribution rt = some 1000 := by
    unfold rtContribution
    rw [htruthy]
    rw [if_pos rfl, if_pos hnodig]
  refine ⟨hc, ?_⟩
  have hok : ∀ j, j < n → trialOk ((fun _ => SingleOutcome.reply (.bool true) rt none) j)
      = true := by
    intro j _; rfl
  rw [check_proxy_multiple_all_ok hok, collectFrom_const_sentinel hc n 0]
  obtain ⟨m, rfl⟩ : ∃ m, n = m + 1 := ⟨n - 1, by omega⟩
  have hrepl : List.replicate (m + 1) 1000 = 1000 :: List.replicate m 1000 :=
    List.replicate_succ 1000 (m + 1 - 1)
  rw [hrepl]
  have hsum : (1000 :: List.replicate m 1000).sum = (m + 1) * 1000 := by
    simp [List.sum_replicate, smul_eq_mul]
    ring
  have hlen : (1000 :: List.replicate m 1000).length = m + 1 := by simp
  have hmin : listMin (1000 :: List.replicate m 1000) = 1000 := by
    simp only [listMin, foldl_min_replicate]
  have hmax : listMax (1000 :: List.replicate m 1000) = 1000 := by
    simp only [listMax, foldl_max_replicate]
  have hdiv : (1000 :: List.replicate m 1000).sum / (1000 :: List.replicate m 1000).length
      = 1000 := by
    rw [hsum, hlen, Nat.mul_div_cancel_left 1000 (by omega : 0 < m + 1)]
  rw [if_neg (by simp), hdiv, hmin, hmax]

/-- Witness for C6: two trials reporting success with latency `"abc"`. -/
theorem sentinel_latency_spec_witness :
    (0 < 2 ∧ jsonTruthy (.str "abc") = true
      ∧ (pyStr (.str "abc")).toList.filter (fun c => c.isDigit) = [])
    ∧ rtContribution (.str "abc") = some 1000
    ∧ check_proxy_multiple (fun _ => .reply (.bool true) (.str "abc") none) 2
        = (.successR (List.replicate 2 1000) 1000 1000 1000, 2) :=
  ⟨⟨by decide, by decide, by decide⟩,
    (sentinel_latency_spec (.str "abc") 2 (by decide) (by decide) (by decide)).1,
    (sentinel_latency_spec (.str "abc") 2 (by decide) (by decide) (by decide)).2⟩

/-! ### C7 -/

/-- C7 as stated is false: the claim's accepted set — the literal boolean
and the strings `"true"`/`"false"` case-sensitively — does not contain the
string `"True"`, yet the code's list `[True, 'true', 'True']` accepts it:
a reply whose `success` is `"True"` counts as a successful trial. -/
theorem success_truthy_counterexample :
    successTruthy (.str "True") = true
    ∧ JsonVal.str "True" ≠ .bool true ∧ JsonVal.str "True" ≠ .str "true"
    ∧ check_proxy_multiple (fun _ => .reply (.str "True") (.str "52ms") none) 1
      = (.successR [52] 52 52 52, 1) := by decide

/-- C7 (amended: the accepted truthy set is exactly
`{True, "true", "True"}` — case-sensitive in that any other spelling such
as `"TRUE"`, `"False"` or `"false"` is rejected): a trial counts as
Success iff its `success` value is in that set, and a false-like `success`
value makes the sampler return a service-error failure carrying the
service's message field. -/
theorem success_truthy_spec :
    (∀ v : JsonVal, successTruthy v = true ↔
      (v = .bool true ∨ v = .str "true" ∨ v = .str "True"))
    ∧ (∀ (v rt : JsonVal) (m : String) (n : Nat), 0 < n → successTruthy v = false →
        check_proxy_multiple (fun _ => .reply v rt (some m)) n
          = (.errorR ("第" ++ toString 1 ++ "次检测" ++ m), 1)) := by
  constructor
  · intro v
    simp [successTruthy, or_assoc]
  · intro v rt m n hn hfalse
    obtain ⟨k, rfl⟩ : ∃ k, n = k + 1 := ⟨n - 1, by omega⟩
    show runTrialsFrom (fun _ => .reply v rt (some m)) 0 [] (k + 1) = _
    simp only [runTrialsFrom, hfalse, Bool.false_eq_true, if_false, Option.getD_some]

/-- Witness for C7: the service answers `success = "false"` with a message. -/
theorem success_truthy_spec_witness :
    (0 < 1 ∧ successTruthy (.str "false") = false)
    ∧ check_proxy_multiple (fun _ => .reply (.str "false") .null (some "not reachable")) 1
      = (.errorR ("第" ++ toString 1 ++ "次检测" ++ "not reachable"), 1) :=
  ⟨⟨by decide, by decide⟩,
    success_truthy_spec.2 (.str "false") .null "not reachable" 1 (by decide) (by decide)⟩

/-! ## Batch driver (`process_proxy_line` counters and `main`,
check_proxy.py 691-712 and 755-818)

The dispatcher's thread pool is modelled as a fold over the input lines:
every counter update in the source happens inside the single
`with file_lock:` block, so one `process_proxy_line_step` is exactly one
atomic counter transaction.  `probeFor i j` is the outcome of trial `j`
for input line `i`. -/

/-- The shared counters dictionary. -/
structure Counters where
  total : Nat
  success : Nat
  failed : Nat
  timeout : Nat
deriving DecidableEq

/-- The classification/counter part of `process_proxy_line`: skipped lines
touch nothing; a probed endpoint increments `total` and then exactly one of
`success` / `failed`, with `timeout` incremented alongside `failed` for
timeouts.  The second component is the successful average latency. -/
def process_proxy_line_step (probe : Nat → SingleOutcome) (test_times : Nat)
    (c : Counters) (raw : List Char) : Counters × Option Nat :=
  match process_proxy_line raw with
  | none => (c, none)
  | some _ =>
    match (check_proxy_multiple probe test_times).1 with
    | .timeoutR _ =>
      ({ c with total := c.total + 1, timeout := c.timeout + 1, failed := c.failed + 1 }, none)
    | .errorR _ => ({ c with total := c.total + 1, failed := c.failed + 1 }, none)
    | .successR _ avg _ _ =>
      ({ c with total := c.total + 1, success := c.success + 1 }, some avg)

/-- Outcome of a `main` run: abort with exit status 1 before any probing
(missing/unreadable input file), or normal completion (exit status 0) with
final counters and the collected successful latencies. -/
inductive MainResult where
  | fileError
  | completed (c : Counters) (successes : List Nat)
deriving DecidableEq

/-- Process the input lines in order (`i` is the line index). -/
def runLines (probeFor : Nat → Nat → SingleOutcome) (tt : Nat) :
    List (List Char) → Nat → Counters × List Nat → Counters × List Nat
  | [], _, acc => acc
  | l :: ls, i, acc =>
    runLines probeFor tt ls (i + 1)
      ((process_proxy_line_step (probeFor i) tt acc.1 l).1,
        acc.2 ++ ((process_proxy_line_step (probeFor i) tt acc.1 l).2).toList)

/-- `main` (check_proxy.py 755-818): abort iff the input file is not
readable; otherwise process every line and complete normally — there is no
zero-valid-endpoints abort in this script. -/
def main_run (fileOk : Bool) (lines : List (List Char))
    (probeFor : Nat → Nat → SingleOutcome) (test_times : Nat) : MainResult :=
  if fileOk = false then .fileError
  else
    .completed (runLines probeFor test_times lines 0 (⟨0, 0, 0, 0⟩, [])).1
      (runLines probeFor test_times lines 0 (⟨0, 0, 0, 0⟩, [])).2

/-- The invariant of C10: totals split into successes and failures, and
timeouts are a subset of failures. -/
def countersInv (c : Counters) : Prop :=
  c.total = c.success + c.failed ∧ c.timeout ≤ c.failed

/-! ### C8 -/

/-- C8 as stated is false: an input whose lines are a comment and a blank
parses to zero valid endpoints, yet the checker completes normally with
all-zero counters (exit status 0) instead of aborting with a non-zero
status. -/
theorem zero_valid_no_abort_counterexample :
    main_run true ["# comment".toList, "   ".toList] (fun _ _ => .timeout) 3
      = .completed ⟨0, 0, 0, 0⟩ [] := by decide

lemma runLines_all_skipped (probeFor : Nat → Nat → SingleOutcome) (tt : Nat) :
    ∀ (ls : List (List Char)) (i : Nat) (acc : Counters × List Nat),
      (∀ l ∈ ls, process_proxy_line l = none) →
      runLines probeFor tt ls i acc = acc := by
  intro ls
  induction ls with
  | nil => intro i acc _; rfl
  | cons l ls ih =>
    intro i acc h
    have hl : process_proxy_line l = none := h l (List.mem_cons_self l ls)
    show runLines probeFor tt ls (i + 1)
        ((process_proxy_line_step (probeFor i) tt acc.1 l).1,
          acc.2 ++ ((process_proxy_line_step (probeFor i) tt acc.1 l).2).toList) = acc
    have hstep : process_proxy_line_step (probeFor i) tt acc.1 l = (acc.1, none) := by
      unfold process_proxy_line_step
      rw [hl]
    rw [hstep]
    simpa using ih (i + 1) (acc.1, acc.2) (fun x hx => h x (List.mem_cons_of_mem l hx))

/-- C8 (amended: the only fatal condition of the checker is a
missing/unreadable input file, which aborts before any probing; zero valid
endpoints parsed does not abort — the run completes normally with all-zero
counters — and no per-endpoint outcome ever terminates the batch). -/
theorem main_fatal_conditions :
    (∀ (lines : List (List Char)) (probeFor : Nat → Nat → SingleOutcome) (tt : Nat),
      main_run false lines probeFor tt = .fileError)
    ∧ (∀ (lines : List (List Char)) (probeFor : Nat → Nat → SingleOutcome) (tt : Nat),
        ∃ c s, main_run true lines probeFor tt = .completed c s)
    ∧ (∀ (lines : List (List Char)) (probeFor : Nat → Nat → SingleOutcome) (tt : Nat),
        (∀ l ∈ lines, process_proxy_line l = none) →
        main_run true lines probeFor tt = .completed ⟨0, 0, 0, 0⟩ []) := by
  refine ⟨fun lines probeFor tt => rfl, fun lines probeFor tt => ⟨_, _, rfl⟩, ?_⟩
  intro lines probeFor tt h
  unfold main_run
  rw [if_neg (by simp)]
  rw [runLines_all_skipped probeFor tt lines 0 _ h]

/-- Witness for C8: a comment-only input completes normally. -/
theorem main_fatal_conditions_witness :
    (∀ l ∈ [("# only a comment".toList : List Char)], process_proxy_line l = none)
    ∧ main_run true ["# only a comment".toList] (fun _ _ => .timeout) 3
        = .completed ⟨0, 0, 0, 0⟩ [] :=
  ⟨by decide, main_fatal_conditions.2.2 _ (fun _ _ => .timeout) 3 (by decide)⟩

/-! ### C10 -/

lemma process_proxy_line_step_inv (probe : Nat → SingleOutcome) (tt : Nat)
    (c : Counters) (raw : List Char) (h : countersInv c) :
    countersInv (process_proxy_line_step probe tt c raw).1 := by
  obtain ⟨h1, h2⟩ := h
  unfold process_proxy_line_step
  cases process_proxy_line raw with
  | none => exact ⟨h1, h2⟩
  | some e =>
    cases (check_proxy_multiple probe tt).1 with
    | timeoutR m => exact ⟨by simp; omega, by simp; omega⟩
    | errorR m => exact ⟨by simp; omega, by simp; omega⟩
    | successR rts avg mn mx => exact ⟨by simp; omega, by simp; omega⟩

lemma runLines_inv (probeFor : Nat → Nat → SingleOutcome) (tt : Nat) :
    ∀ (ls : List (List Char)) (i : Nat) (acc : Counters × List Nat),
      countersInv acc.1 → countersInv (runLines probeFor tt ls i acc).1 := by
  intro ls
  induction ls with
  | nil => intro i acc h; exact h
  | cons l ls ih =>
    intro i acc h
    exact ih (i + 1) _ (process_proxy_line_step_inv (probeFor i) tt acc.1 l h)

/-- C10: every counter transaction of `process_proxy_line` (one atomic
locked block in the source) preserves `total = success + failed` and
`timeout ≤ failed`; a timeout increments both `timeout` and `failed`
(timeouts are a subset of failures, not a disjoint category); and the
final counters of any completed run satisfy the invariant. -/
theorem counters_invariant :
    (∀ (probe : Nat → SingleOutcome) (tt : Nat) (c : Counters) (raw : List Char),
      countersInv c → countersInv (process_proxy_line_step probe tt c raw).1)
    ∧ (∀ (probe : Nat → SingleOutcome) (tt : Nat) (c : Counters) (raw : List Char)
        (m : String), process_proxy_line raw ≠ none →
        (check_proxy_multiple probe tt).1 = .timeoutR m →
        (process_proxy_line_step probe tt c raw).1
          = { c with
                total := c.total + 1
                timeout := c.timeout + 1
                failed := c.failed + 1 })
    ∧ (∀ (fileOk : Bool) (lines : List (List Char))
        (probeFor : Nat → Nat → SingleOutcome) (tt : Nat) (c : Counters) (s : List Nat),
        main_run fileOk lines probeFor tt = .completed c s → countersInv c) := by
  refine ⟨process_proxy_line_step_inv, ?_, ?_⟩
  · intro probe tt c raw m hparse htim
    unfold process_proxy_line_step
    cases hp : process_proxy_line raw with
    | none => exact absurd hp hparse
    | some e => rw [htim]
  · intro fileOk lines probeFor tt c s h
    cases fileOk with
    | false => exact absurd h (by simp [main_run])
    | true =>
      unfold main_run at h
      rw [if_neg (by simp)] at h
      injection h with h1 h2
      rw [← h1]
      exact runLines_inv probeFor tt lines 0 _ ⟨rfl, Nat.le_refl 0⟩

/-- Witness for C10: a timed-out endpoint bumps `total`, `failed` and
`timeout` together, preserving the invariant, and a completed concrete run
satisfies it. -/
theorem counters_invariant_witness :
    (countersInv ⟨5, 2, 3, 1⟩
      ∧ countersInv ((process_proxy_line_step (fun _ => .timeout) 3 ⟨5, 2, 3, 1⟩
          ("1.2.3.4 80".toList)).1))
    ∧ (process_proxy_line ("1.2.3.4 80".toList) ≠ none
      ∧ (check_proxy_multiple (fun _ => .timeout) 3).1 = .timeoutR "第1次检测请求超时"
      ∧ (process_proxy_line_step (fun _ => .timeout) 3 ⟨5, 2, 3, 1⟩
          ("1.2.3.4 80".toList)).1 = ⟨6, 2, 4, 2⟩)
    ∧ (main_run true ["1.2.3.4 80".toList] (fun _ _ => .timeout) 3
        = .completed ⟨1, 0, 1, 1⟩ []
      ∧ countersInv ⟨1, 0, 1, 1⟩) :=
  ⟨⟨⟨by decide, by decide⟩,
      counters_invariant.1 (fun _ => .timeout) 3 ⟨5, 2, 3, 1⟩ _ ⟨by decide, by decide⟩⟩,
   ⟨by decide, by decide,
      (counters_invariant.2.1 (fun _ => .timeout) 3 ⟨5, 2, 3, 1⟩ ("1.2.3.4 80".toList)
        "第1次检测请求超时" (by decide) (by decide)).trans (by decide)⟩,
   ⟨by decide,
      counters_invariant.2.2 true ["1.2.3.4 80".toList] (fun _ _ => .timeout) 3
        ⟨1, 0, 1, 1⟩ [] (by decide)⟩⟩

end IptestRepo
